import Mathlib

/-!
Verification development for the git-branchless core: the fast in-memory
tree-rewriting engine (`cherry_pick_fast`, `amend_fast`) from
`git-branchless-lib/src/git/repo.rs`, and the smartlog graph builder and
renderer root comparator from `git-branchless/src/commands/smartlog.rs`.

Modelling conventions:
- An OID is a natural number; `0` is the all-zero ("absent") OID, so
  `MaybeZeroOid` is `Nat` and a `NonZeroOid` is a `Nat` known to be nonzero
  where it matters.  Content addressing is modelled by structural equality:
  two objects have the same OID exactly when they have the same contents.
- A path is a byte string, modelled as `List Char`.
- A tree is modelled by its flattened form: an association list from full
  paths to `(oid, file mode)` entries, queried through `treeGet`.
- The libgit2 three-way merge (`Repo::cherry_pick_commit`) is an external
  facade; it is passed to `cherry_pick_fast` as a function parameter.
- Error payloads that only carry diagnostic OIDs are omitted from the
  error types; the constructors themselves are kept.
-/

deriving instance DecidableEq for Except

namespace Branchless

/-- An object id.  `0` models the all-zero OID ("absent"). -/
abbrev Oid := Nat

/-- A repository-root-relative byte path. -/
abbrev Path := List Char

/-- Modelled from the spec: the file-mode enum of the VCS tree encoding
({absent, regular-blob, executable-blob, symlink, gitlink, tree}); the
`FileMode` type itself lives in `git/status.rs`, which is not part of the
sources considered here. -/
inductive FileMode where
  | unreadable
  | tree
  | blob
  | blobExecutable
  | link
  | commit
deriving DecidableEq

/-- A tree entry: object id and file mode. -/
abbrev TreeEntryData := Oid × FileMode

/-- A tree in flattened form: full path to entry. -/
abbrev Tree := List (Path × TreeEntryData)

/-- Look up the entry of a tree at a path (`Tree::get_path`). -/
def treeGet (t : Tree) (p : Path) : Option TreeEntryData :=
  (t.find? (fun e => e.1 == p)).map Prod.snd

/-- A commit: tree plus parent commits.  Signatures and message bytes are
omitted; they do not affect any tree computed by the rewrite engine. -/
inductive Commit where
  | mk (tree : Tree) (parents : List Commit)

/-- The tree of a commit (`Commit::get_tree`). -/
def Commit.tree : Commit → Tree
  | .mk t _ => t

/-- The parents of a commit (`Commit::get_parents`). -/
def Commit.parents : Commit → List Commit
  | .mk _ ps => ps

/-- The parent of a commit if there is exactly one parent, else `none`
(`Commit::get_only_parent`). -/
def Commit.get_only_parent (c : Commit) : Option Commit :=
  match c.parents with
  | [only_parent] => some only_parent
  | _ => none

/-- Modelled from the spec: `diff_trees` / `get_changed_paths_between_trees`
(in `git/tree.rs`, not part of the sources considered here) returns the set
of paths whose entries differ between the two trees; with no old tree every
path of the new tree is returned. -/
def get_changed_paths_between_trees (old_tree : Option Tree) (new_tree : Tree) : List Path :=
  let old := old_tree.getD []
  ((old.map Prod.fst) ++ (new_tree.map Prod.fst)).dedup.filter
    (fun p => decide (treeGet old p ≠ treeGet new_tree p))

/-- The file paths added, removed or changed by a commit
(`Repo::get_paths_touched_by_commit`): all paths of the tree for a
zero-parent commit, the diff to the only parent for a one-parent commit,
and `none` for a commit with two or more parents. -/
def get_paths_touched_by_commit (commit : Commit) : Option (List Path) :=
  match commit.parents with
  | [] => some (get_changed_paths_between_trees none commit.tree)
  | [only_parent] => some (get_changed_paths_between_trees (some only_parent.tree) commit.tree)
  | _ => none

/-- Modelled from the spec: `dehydrate_tree` (in `git/tree.rs`, not part of
the sources considered here) restricts a tree to a path set, inheriting
each surviving entry verbatim. -/
def dehydrate_tree (tree : Tree) (changed_paths : List Path) : Tree :=
  tree.filter (fun e => changed_paths.contains e.1)

/-- `Repo::dehydrate_commit`: a synthetic commit whose tree is the
dehydrated tree and whose parent list is empty, or (when `base_on_parent`
and the commit has exactly one parent) the single dehydrated parent.  The
recursive call in the source always passes `base_on_parent = false`, so it
is unrolled here. -/
def dehydrate_commit (commit : Commit) (changed_paths : List Path) (base_on_parent : Bool) :
    Commit :=
  Commit.mk (dehydrate_tree commit.tree changed_paths)
    (if base_on_parent then
      match commit.get_only_parent with
      | some parent => [Commit.mk (dehydrate_tree parent.tree changed_paths) []]
      | none => []
    else [])

/-- An index entry (possibly-zero OID plus file mode). -/
structure IndexEntry where
  oid : Oid
  file_mode : FileMode
deriving DecidableEq

/-- One conflict record of a merge result: the paths of the ancestor, our
and their sides, each possibly absent. -/
structure IndexConflict where
  ancestor : Option Path
  our : Option Path
  their : Option Path
deriving DecidableEq

/-- The in-memory index produced by the facade three-way merge
(`Repo::cherry_pick_commit`): per-path merged entries plus the conflict
records. -/
structure MergeIndex where
  entries : Path → Option IndexEntry
  conflicts : List IndexConflict

/-- `Index::has_conflicts`. -/
def MergeIndex.has_conflicts (i : MergeIndex) : Bool :=
  !i.conflicts.isEmpty

/-- The conflicting path set collected by `cherry_pick_fast`: the union of
the ancestor, our and their paths over all conflict records (a `HashSet`
in the source, modelled by a deduplicated list). -/
def conflictingPaths (conflicts : List IndexConflict) : List Path :=
  (conflicts.flatMap (fun c => c.ancestor.toList ++ c.our.toList ++ c.their.toList)).dedup

/-- Modelled from the spec: the entry of the hydrated tree at one path.
`hydrate_tree` (in `git/tree.rs`, not part of the sources considered here)
merges a partial update map into a base tree: an update to a nonzero OID
sets the entry, an update to the zero OID or to `none` removes it, and
paths not mentioned keep their base entry. -/
def hydrateEntry (base : Tree) (updates : List (Path × Option TreeEntryData)) (p : Path) :
    Option (Path × TreeEntryData) :=
  match updates.find? (fun u => u.1 == p) with
  | some u =>
    match u.2 with
    | some em => if em.1 = 0 then none else some (p, em)
    | none => none
  | none => (treeGet base p).map (fun e => (p, e))

/-- Modelled from the spec: the hydrated tree in flattened form, one
`hydrateEntry` per path of the base tree or of the update map. -/
def hydrate_tree (base : Tree) (updates : List (Path × Option TreeEntryData)) : Tree :=
  ((base.map Prod.fst ++ updates.map Prod.fst).dedup).filterMap (hydrateEntry base updates)

/-- Options for `Repo::cherry_pick_fast`. -/
structure CherryPickFastOptions where
  reuse_parent_tree_if_possible : Bool

/-- Errors of `Repo::cherry_pick_fast`.  `GetPatch` is the "missing patch"
error; the storage and path-decoding errors cannot occur in this pure
model. -/
inductive CherryPickFastError where
  | MergeConflict (conflicting_paths : List Path)
  | GetPatch
deriving DecidableEq

/-- The reuse-parent-tree short-circuit test at the top of
`Repo::cherry_pick_fast`: the option is set, the patch commit has exactly
one parent, and that parent has the same tree OID as the target commit. -/
def reuse_parent_tree (patch_commit target_commit : Commit)
    (options : CherryPickFastOptions) : Bool :=
  options.reuse_parent_tree_if_possible &&
    (match patch_commit.get_only_parent with
     | some only_parent => decide (only_parent.tree = target_commit.tree)
     | none => false)

/-- `Repo::cherry_pick_fast`.  The libgit2 merge is the `merge` parameter;
`find_tree_or_fail` on the hydrated OID is the identity in this model. -/
def cherry_pick_fast (merge : Commit → Commit → MergeIndex)
    (patch_commit target_commit : Commit) (options : CherryPickFastOptions) :
    Except CherryPickFastError Tree :=
  if reuse_parent_tree patch_commit target_commit options then
    .ok patch_commit.tree
  else
    match get_paths_touched_by_commit patch_commit with
    | none => .error .GetPatch
    | some changed_pathbufs =>
      let dehydrated_patch_commit := dehydrate_commit patch_commit changed_pathbufs true
      let dehydrated_target_commit := dehydrate_commit target_commit changed_pathbufs false
      let rebased_index := merge dehydrated_patch_commit dehydrated_target_commit
      if rebased_index.has_conflicts then
        .error (.MergeConflict (conflictingPaths rebased_index.conflicts))
      else
        .ok (hydrate_tree target_commit.tree (changed_pathbufs.map (fun changed_path =>
          (changed_path,
            match rebased_index.entries changed_path with
            | some e => if e.oid = 0 then none else some (e.oid, e.file_mode)
            | none => none))))

/-- Modelled from the spec: a status entry (in `git/status.rs`, not part of
the sources considered here) carries the repository-root path, the original
path for renames (together exposed by `StatusEntry::paths`), and the
working-copy file mode used by `amend_fast`. -/
structure StatusEntry where
  paths : List Path
  working_copy_file_mode : FileMode
deriving DecidableEq

/-- Options for `Repo::amend_fast`. -/
inductive AmendFastOptions where
  | FromWorkingCopy (status_entries : List StatusEntry)
  | FromIndex (paths : List Path)

/-- The repo-level errors that `Repo::amend_fast` can produce in this pure
model (`Error::GetPatch`, `Error::NoWorkingCopyPath`); storage errors
cannot occur here. -/
inductive RepoError where
  | GetPatch
  | NoWorkingCopyPath
deriving DecidableEq

/-- The data of a stored commit as the smartlog consumes it: the committer
time (`Commit::get_time`).  Real committer times are totally ordered
timestamps, modelled as naturals. -/
structure CommitData where
  time : Nat
deriving DecidableEq

/-- The state of a repository as consumed by the rewrite engine and the
smartlog: the staging index (`Index::get_entry`), the working copy
(`None` for a bare repository; otherwise the blob OID that
`create_blob_from_path` produces for each on-disk file, `none` when the
file does not exist), and commit lookup by OID exposing the committer time
(`Repo::find_commit`). -/
structure Repo where
  index : Path → Option IndexEntry
  workdir : Option (Path → Option Oid)
  findCommit : Oid → Option CommitData

/-- Lookup in a map built by inserting bindings in order into a hash map:
the last binding for a key wins. -/
def lookupLast (l : List (Path × Option TreeEntryData)) (p : Path) :
    Option (Option TreeEntryData) :=
  l.foldl (fun acc e => if e.1 == p then some e.2 else acc) none

/-- `Repo::amend_fast`.  The paths touched by the parent commit and the
paths named by the options are collected (a `HashSet` in the source,
modelled by a deduplicated list), the parent commit is dehydrated, the
working-copy path is resolved (failing on a bare repository), the new
entries are computed from the options, and the update map falls back to
the dehydrated parent tree for paths without a new entry. -/
def amend_fast (repo : Repo) (parent_commit : Commit) (opts : AmendFastOptions) :
    Except RepoError Tree :=
  match get_paths_touched_by_commit parent_commit with
  | none => .error .GetPatch
  | some parent_commit_pathbufs =>
    let changed_paths : List Path :=
      (parent_commit_pathbufs ++
        (match opts with
         | .FromIndex paths => paths
         | .FromWorkingCopy status_entries =>
             status_entries.flatMap (fun entry => entry.paths))).dedup
    let dehydrated_parent_tree := (dehydrate_commit parent_commit changed_paths true).tree
    match repo.workdir with
    | none => .error .NoWorkingCopyPath
    | some create_blob_from_path =>
      let new_tree_entries : List (Path × Option TreeEntryData) :=
        match opts with
        | .FromWorkingCopy status_entries =>
          status_entries.flatMap (fun entry =>
            entry.paths.map (fun path =>
              (path, (create_blob_from_path path).map
                (fun oid => (oid, entry.working_copy_file_mode)))))
        | .FromIndex paths =>
          paths.filterMap (fun path =>
            match repo.index path with
            | some e =>
              if e.oid = 0 then none
              else some (path, some (e.oid, e.file_mode))
            | none => some (path, none))
      let amended_tree_entries : List (Path × Option TreeEntryData) :=
        changed_paths.map (fun changed_path =>
          (changed_path,
            match lookupLast new_tree_entries changed_path with
            | some new_tree_entry => new_tree_entry
            | none => treeGet dehydrated_parent_tree changed_path))
      .ok (hydrate_tree parent_commit.tree amended_tree_entries)

/-- The parsed version of Git (`GitVersion`); the source fields are
`isize`. -/
structure GitVersion where
  major : Int
  minor : Int
  patch : Int
deriving DecidableEq

/-- The two parse errors of `GitVersion::from_str`. -/
inductive GitVersionError where
  | ParseGitVersionOutput
  | ParseGitVersionSpecifier
deriving DecidableEq

/-- Split a byte string at every separator character, keeping empty
segments, as `str::split` does. -/
def splitChars (sep : Char → Bool) : List Char → List (List Char)
  | [] => [[]]
  | c :: rest =>
    match splitChars sep rest with
    | [] => [[]]
    | seg :: segs => if sep c then [] :: seg :: segs else (c :: seg) :: segs

/-- Trim leading and trailing whitespace, as `str::trim` does. -/
def trimChars (l : List Char) : List Char :=
  ((l.dropWhile Char.isWhitespace).reverse.dropWhile Char.isWhitespace).reverse

/-- Parse a nonempty all-digit byte string as a number, as
`str::parse` does on the version components (no sign can appear here
because the input was already split at every hyphen). -/
def charsToNat? (l : List Char) : Option Nat :=
  if l ≠ [] ∧ l.all Char.isDigit then
    some (l.foldl (fun acc c => acc * 10 + (c.toNat - 48)) 0)
  else none

/-- `GitVersion::from_str` on the byte string of the input: trim, split at
spaces and hyphens, require at least three words, take the third as the
version specifier, split it at dots, require at least three components,
parse major and minor (failing otherwise), and default a non-numeric patch
component to 0. -/
def gitVersionFromChars (output : List Char) : Except GitVersionError GitVersion :=
  let trimmed := trimChars output
  let words := splitChars (fun c => c == ' ' || c == '-') trimmed
  match words with
  | _git :: _version :: version_str :: _ =>
    match splitChars (fun c => c == '.') version_str with
    | major :: minor :: patch :: _ =>
      match charsToNat? major, charsToNat? minor with
      | some major, some minor =>
        .ok ⟨(major : Int), (minor : Int), (((charsToNat? patch).getD 0 : Nat) : Int)⟩
      | _, _ => .error .ParseGitVersionSpecifier
    | _ => .error .ParseGitVersionSpecifier
  | _ => .error .ParseGitVersionOutput

/-- `GitVersion::from_str`. -/
def gitVersionFromStr (output : String) : Except GitVersionError GitVersion :=
  gitVersionFromChars output.data

/-- Modelled from the spec: the DAG facade consumed by the smartlog (the
`dag` module is not part of the sources considered here).  It answers the
true-parent query, the shortest-path-to-main-branch query, the obsolete
and public commit sets, the active-heads query, and the merge-base query
used by the renderer. -/
structure Dag where
  parentsOf : Oid → List Oid
  findPathToMainBranch : Oid → Option (List Oid)
  obsoleteCommits : List Oid
  publicCommits : List Oid
  activeHeads : List Oid → List Oid → List Oid
  getOneMergeBaseOid : Oid → Oid → Option Oid

/-- A node of the smartlog commit graph.  `object` is `some` commit data,
or `none` for a garbage-collected commit. -/
structure Node where
  object : Option CommitData
  parent : Option Oid
  children : List Oid
  is_main : Bool
  is_obsolete : Bool
deriving DecidableEq

/-- The smartlog graph: the set of node OIDs (the keys of the `nodes` hash
map in the source) together with the node contents. -/
structure SmartlogGraph where
  oids : List Oid
  node : Oid → Node

/-- The OIDs inserted by the walk in `walk_from_active_heads`: for every
active head, the commits on its path to the main branch (the head alone
when the DAG reports no path); hash-map key insertion is modelled by
deduplication. -/
def graphOids (dag : Dag) (active_heads : List Oid) : List Oid :=
  (active_heads.flatMap (fun vertex =>
    (dag.findPathToMainBranch vertex).getD [vertex])).dedup

/-- The node contents inserted by the walk before links are populated. -/
def initialNode (repo : Repo) (dag : Dag) (public_commits : List Oid) (oid : Oid) : Node :=
  { object := repo.findCommit oid
    parent := none
    children := []
    is_main := public_commits.contains oid
    is_obsolete := dag.obsoleteCommits.contains oid }

/-- The immediate parent-child links found by `walk_from_active_heads`:
for every non-main node of the graph, one link per true parent that is
also in the graph. -/
def graphLinks (repo : Repo) (dag : Dag) (public_commits : List Oid) (oids : List Oid) :
    List (Oid × Oid) :=
  (oids.filter (fun child_oid => !(initialNode repo dag public_commits child_oid).is_main)).flatMap
    (fun child_oid =>
      ((dag.parentsOf child_oid).filter (fun parent_oid => oids.contains parent_oid)).map
        (fun parent_oid => (child_oid, parent_oid)))

/-- `walk_from_active_heads`: insert the nodes, then apply the links in
order; a later link for the same child overwrites its `parent` field, and
every link appends the child to the `children` of its parent. -/
def walk_from_active_heads (repo : Repo) (dag : Dag) (public_commits : List Oid)
    (active_heads : List Oid) : SmartlogGraph :=
  let oids := graphOids dag active_heads
  let links := graphLinks repo dag public_commits oids
  { oids := oids
    node := fun oid =>
      { initialNode repo dag public_commits oid with
        parent := ((links.filter (fun l => l.1 == oid)).getLast?).map Prod.snd
        children := (links.filter (fun l => l.2 == oid)).map Prod.fst } }

/-- The child sort key of `sort_children`: committer time (`none` for a
garbage-collected commit, sorting first) and then the OID.  The source
breaks ties on the hex string of the OID; hex strings of equal-width OIDs
compare exactly as the numbers do. -/
def childSortLE (repo : Repo) (lhs rhs : Oid) : Bool :=
  let lhs_time := (repo.findCommit lhs).map CommitData.time
  let rhs_time := (repo.findCommit rhs).map CommitData.time
  if lhs_time = rhs_time then lhs ≤ rhs
  else
    match lhs_time, rhs_time with
    | none, _ => true
    | some _, none => false
    | some a, some b => a ≤ b

/-- `sort_children`: stable-sort every children list by
`(committer time, oid)` ascending. -/
def sort_children (repo : Repo) (graph : SmartlogGraph) : SmartlogGraph :=
  { graph with
    node := fun oid =>
      let n := graph.node oid
      { n with
        children := n.children.insertionSort (fun a b => childSortLE repo a b = true) } }

/-- `make_smartlog_graph`: derive the active heads from the observed
commits (dropping obsolete ones when `remove_commits`), walk from them and
sort the children.  The `mark_commit_reachable` GC hint is a side effect
on the external store and does not affect the graph. -/
def make_smartlog_graph (repo : Repo) (dag : Dag) (observed_commits : List Oid)
    (remove_commits : Bool) : SmartlogGraph :=
  let public_commits := dag.publicCommits
  let observed := if remove_commits then
      observed_commits.filter (fun c => !(dag.obsoleteCommits.contains c))
    else observed_commits
  let active_heads := dag.activeHeads public_commits observed
  sort_children repo (walk_from_active_heads repo dag public_commits active_heads)

/-- The root comparator of `split_commit_graph_by_roots`: if either commit
cannot be loaded, compare by OID; otherwise consult the merge base, and
when it is absent or equal to neither side, compare by commit time with
OID as the tie break. -/
def compareRoots (repo : Repo) (dag : Dag) (lhs_oid rhs_oid : Oid) : Ordering :=
  match repo.findCommit lhs_oid, repo.findCommit rhs_oid with
  | some lhs_commit, some rhs_commit =>
    match dag.getOneMergeBaseOid lhs_oid rhs_oid with
    | some merge_base_oid =>
      if merge_base_oid = lhs_oid then .lt
      else if merge_base_oid = rhs_oid then .gt
      else
        match compare lhs_commit.time rhs_commit.time with
        | .eq => compare lhs_oid rhs_oid
        | result => result
    | none =>
      match compare lhs_commit.time rhs_commit.time with
      | .eq => compare lhs_oid rhs_oid
      | result => result
  | _, _ => compare lhs_oid rhs_oid

/-- The root comparison rule exactly as the specification words it: load
both commits (falling back to OID comparison), then the merge-base
precedence, then commit time with OID tie break. -/
def specCompareRoots (repo : Repo) (dag : Dag) (lhs_oid rhs_oid : Oid) : Ordering :=
  match repo.findCommit lhs_oid, repo.findCommit rhs_oid with
  | some lhs_commit, some rhs_commit =>
    if dag.getOneMergeBaseOid lhs_oid rhs_oid = some lhs_oid then .lt
    else if dag.getOneMergeBaseOid lhs_oid rhs_oid = some rhs_oid then .gt
    else
      match compare lhs_commit.time rhs_commit.time with
      | .eq => compare lhs_oid rhs_oid
      | result => result
  | _, _ => compare lhs_oid rhs_oid

/-! Helper lemmas about association-list lookups. -/

theorem contains_iff {α : Type} [BEq α] [LawfulBEq α] (l : List α) (a : α) :
    l.contains a = true ↔ a ∈ l := by
  simp [List.contains, List.elem_iff]

theorem treeGet_nil (p : Path) : treeGet [] p = none := rfl

theorem treeGet_cons (e : Path × TreeEntryData) (t : Tree) (p : Path) :
    treeGet (e :: t) p = if e.1 = p then some e.2 else treeGet t p := by
  by_cases h : e.1 = p
  · simp [treeGet, List.find?_cons, h]
  · have hb : (e.1 == p) = false := by simpa using h
    simp [treeGet, List.find?_cons, hb, h]

theorem treeGet_eq_none_iff (t : Tree) (p : Path) :
    treeGet t p = none ↔ ∀ e ∈ t, e.1 ≠ p := by
  unfold treeGet
  rw [Option.map_eq_none', List.find?_eq_none]
  constructor
  · intro h e he
    simpa using h e he
  · intro h e he
    simpa using h e he

theorem find?_map_keyed {α β : Type} [BEq α] [LawfulBEq α] (l : List α) (g : α → β) (p : α) :
    (l.map (fun cp => (cp, g cp))).find? (fun u => u.1 == p) =
      if p ∈ l then some (p, g p) else none := by
  induction l with
  | nil => simp
  | cons a rest ih =>
    rw [List.map_cons]
    by_cases h : a = p
    · subst h
      rw [List.find?_cons_of_pos _ (by simp), if_pos (List.mem_cons_self a rest)]
    · rw [List.find?_cons_of_neg _ (by simpa using h), ih]
      simp [List.mem_cons, Ne.symm h]

theorem find?_filterMap_keyed {α β : Type} [BEq α] [LawfulBEq α]
    (f : α → Option (α × β)) (hf : ∀ q e, f q = some e → e.1 = q)
    (keys : List α) (hnd : keys.Nodup) (p : α) :
    (keys.filterMap f).find? (fun u => u.1 == p) = if p ∈ keys then f p else none := by
  induction keys with
  | nil => simp
  | cons a rest ih =>
    have hnotin : a ∉ rest := (List.nodup_cons.mp hnd).1
    have hndr : rest.Nodup := (List.nodup_cons.mp hnd).2
    cases hfa : f a with
    | none =>
      rw [List.filterMap_cons_none hfa, ih hndr]
      by_cases h : a = p
      · subst h
        simp [hfa, hnotin]
      · simp [List.mem_cons, Ne.symm h]
    | some e =>
      have he1 : e.1 = a := hf a e hfa
      rw [List.filterMap_cons_some hfa]
      by_cases h : a = p
      · subst h
        rw [List.find?_cons_of_pos _ (by simp [he1]),
          if_pos (List.mem_cons_self a rest), hfa]
      · rw [List.find?_cons_of_neg _ (by simp [he1, h]), ih hndr]
        simp [List.mem_cons, Ne.symm h]

theorem hydrateEntry_key (base : Tree) (updates : List (Path × Option TreeEntryData)) :
    ∀ q e, hydrateEntry base updates q = some e → e.1 = q := by
  intro q e he
  unfold hydrateEntry at he
  split at he
  · split at he
    · split at he
      · cases he
      · cases he
        rfl
    · cases he
  · rcases ht : treeGet base q with _ | v <;> rw [ht] at he
    · cases he
    · rw [Option.map_some'] at he
      cases he
      rfl

theorem hydrate_tree_get (base : Tree) (updates : List (Path × Option TreeEntryData))
    (p : Path) :
    treeGet (hydrate_tree base updates) p =
      match updates.find? (fun u => u.1 == p) with
      | some u =>
        match u.2 with
        | some em => if em.1 = 0 then none else some em
        | none => none
      | none => treeGet base p := by
  have step : treeGet (hydrate_tree base updates) p =
      (if p ∈ (base.map Prod.fst ++ updates.map Prod.fst).dedup
        then hydrateEntry base updates p else none).map Prod.snd := by
    unfold hydrate_tree treeGet
    rw [find?_filterMap_keyed (hydrateEntry base updates) (hydrateEntry_key base updates)
      _ (List.nodup_dedup _) p]
  rw [step]
  by_cases hp : p ∈ (base.map Prod.fst ++ updates.map Prod.fst).dedup
  · rw [if_pos hp]
    unfold hydrateEntry
    rcases hu : updates.find? (fun u => u.1 == p) with _ | u <;> simp only [hu]
    · rcases ht : treeGet base p with _ | v <;> simp [ht]
    · rcases u2 : u.2 with _ | em <;> simp only [u2]
      · simp
      · by_cases hz : em.1 = 0 <;> simp [hz]
  · rw [if_neg hp]
    have hpu : p ∉ updates.map Prod.fst := by
      intro hmem
      exact hp (by
        rw [List.mem_dedup]
        exact List.mem_append_right _ hmem)
    have hpb : p ∉ base.map Prod.fst := by
      intro hmem
      exact hp (by
        rw [List.mem_dedup]
        exact List.mem_append_left _ hmem)
    have hu : updates.find? (fun u => u.1 == p) = none := by
      rw [List.find?_eq_none]
      intro u hu
      simp only [beq_iff_eq]
      intro hupeq
      exact hpu (List.mem_map.mpr ⟨u, hu, hupeq⟩)
    have hb : treeGet base p = none := by
      rw [treeGet_eq_none_iff]
      intro e he hep
      exact hpb (List.mem_map.mpr ⟨e, he, hep⟩)
    rw [hu, hb]
    rfl

theorem dehydrate_tree_get (t : Tree) (changed_paths : List Path) (p : Path) :
    treeGet (dehydrate_tree t changed_paths) p =
      if p ∈ changed_paths then treeGet t p else none := by
  induction t with
  | nil =>
    simp [dehydrate_tree, treeGet_nil]
  | cons e rest ih =>
    unfold dehydrate_tree at ih ⊢
    by_cases hmem : e.1 ∈ changed_paths
    · have hc : changed_paths.contains e.1 = true := (contains_iff changed_paths e.1).mpr hmem
      rw [List.filter_cons_of_pos (by show changed_paths.contains e.1 = true; exact hc),
        treeGet_cons, treeGet_cons, ih]
      by_cases hep : e.1 = p
      · have hp : p ∈ changed_paths := hep ▸ hmem
        simp [hep, hp]
      · simp [hep]
    · have hc : changed_paths.contains e.1 = false := by
        cases h2 : changed_paths.contains e.1
        · rfl
        · exact absurd ((contains_iff changed_paths e.1).mp h2) hmem
      rw [List.filter_cons_of_neg (by
        show ¬changed_paths.contains e.1 = true
        rw [hc]
        simp), ih, treeGet_cons]
      by_cases hp : p ∈ changed_paths
      · have hep : e.1 ≠ p := fun hep => hmem (hep ▸ hp)
        simp [hp, hep]
      · simp [hp]

theorem foldl_lookup_eq_init {β : Type} (l : List (Path × β)) (p : Path) (acc : Option β)
    (h : ∀ e ∈ l, e.1 ≠ p) :
    l.foldl (fun acc e => if e.1 == p then some e.2 else acc) acc = acc := by
  induction l generalizing acc with
  | nil => rfl
  | cons e rest ih =>
    have he : e.1 ≠ p := h e (List.mem_cons_self e rest)
    rw [List.foldl_cons, if_neg (by simpa using he)]
    exact ih _ (fun x hx => h x (List.mem_cons_of_mem e hx))

theorem foldl_lookup_eq_const {β : Type} :
    ∀ (l : List (Path × β)) (p : Path) (v : β) (acc : Option β),
      (∀ e ∈ l, e.1 = p → e.2 = v) → (∃ e ∈ l, e.1 = p) →
      l.foldl (fun acc e => if e.1 == p then some e.2 else acc) acc = some v
  | [], _, _, _, _, hex => by
    rcases hex with ⟨e, he, _⟩
    cases he
  | e :: rest, p, v, acc, hall, hex => by
    rw [List.foldl_cons]
    by_cases hep : e.1 = p
    · rw [if_pos (by simpa using hep)]
      by_cases hex2 : ∃ x ∈ rest, x.1 = p
      · exact foldl_lookup_eq_const rest p v _
          (fun x hx => hall x (List.mem_cons_of_mem e hx)) hex2
      · have hnone : ∀ x ∈ rest, x.1 ≠ p := by
          intro x hx hxp
          exact hex2 ⟨x, hx, hxp⟩
        rw [foldl_lookup_eq_init rest p _ hnone, hall e (List.mem_cons_self e rest) hep]
    · rw [if_neg (by simpa using hep)]
      rcases hex with ⟨x, hx, hxp⟩
      rcases List.mem_cons.mp hx with h1 | h2
      · rw [h1] at hxp
        exact absurd hxp hep
      · exact foldl_lookup_eq_const rest p v acc
          (fun y hy => hall y (List.mem_cons_of_mem e hy)) ⟨x, h2, hxp⟩

theorem lookupLast_eq_none (l : List (Path × Option TreeEntryData)) (p : Path)
    (h : ∀ e ∈ l, e.1 ≠ p) : lookupLast l p = none :=
  foldl_lookup_eq_init l p none h

theorem lookupLast_eq_const (l : List (Path × Option TreeEntryData)) (p : Path)
    (v : Option TreeEntryData)
    (hall : ∀ e ∈ l, e.1 = p → e.2 = v) (hex : ∃ e ∈ l, e.1 = p) :
    lookupLast l p = some v :=
  foldl_lookup_eq_const l p v none hall hex

theorem get_only_parent_eq_some_iff (c : Commit) (par : Commit) :
    c.get_only_parent = some par ↔ c.parents = [par] := by
  unfold Commit.get_only_parent
  rcases hps : c.parents with _ | ⟨a, _ | ⟨b, rest⟩⟩ <;> simp

/-! Shared concrete fixtures. -/

/-- A merge facade that returns no entries and no conflicts. -/
def noMerge : Commit → Commit → MergeIndex :=
  fun _ _ => { entries := fun _ => none, conflicts := [] }

/-- A commit with no parents (a root commit) holding one file. -/
def cexRootCommit : Commit := Commit.mk [("a".data, (1, FileMode.blob))] []

/-- An empty target commit. -/
def cexTargetA : Commit := Commit.mk [] []

/-- A merge facade whose produced index has the root-commit file. -/
def cexMergeA : Commit → Commit → MergeIndex := fun _ _ =>
  { entries := fun p => if p == "a".data then some ⟨1, FileMode.blob⟩ else none
    conflicts := [] }

/-! Claim theorems. -/

/-- Claim C1, counterexample: a patch commit with zero parents does not
fail with `GetPatch`; `cherry_pick_fast` proceeds and returns a tree. -/
theorem cherry_pick_fast_zero_parent_cex :
    cexRootCommit.parents.length = 0 ∧
    cherry_pick_fast cexMergeA cexRootCommit cexTargetA ⟨false⟩ =
      .ok [("a".data, (1, FileMode.blob))] := by
  constructor
  · rfl
  · decide

/-- Claim C1, amended: `cherry_pick_fast` fails with `GetPatch` exactly
when the patch commit has two or more parents; a zero-parent commit is
accepted (its patch is its whole tree). -/
theorem cherry_pick_fast_get_patch_iff (merge : Commit → Commit → MergeIndex)
    (c t : Commit) (options : CherryPickFastOptions) :
    cherry_pick_fast merge c t options = .error .GetPatch ↔ 2 ≤ c.parents.length := by
  unfold cherry_pick_fast
  cases hr : reuse_parent_tree c t options
  · simp only [Bool.false_eq_true, if_false]
    rcases hps : c.parents with _ | ⟨a, _ | ⟨b, rest⟩⟩
    · unfold get_paths_touched_by_commit
      rw [hps]
      cases hc : (merge (dehydrate_commit c (get_changed_paths_between_trees none c.tree) true)
          (dehydrate_commit t (get_changed_paths_between_trees none c.tree) false)).has_conflicts
      · simp [hc, hps]
      · simp [hc, hps]
    · unfold get_paths_touched_by_commit
      rw [hps]
      cases hc : (merge
          (dehydrate_commit c (get_changed_paths_between_trees (some a.tree) c.tree) true)
          (dehydrate_commit t (get_changed_paths_between_trees (some a.tree) c.tree)
            false)).has_conflicts
      · simp [hc, hps]
      · simp [hc, hps]
    · unfold get_paths_touched_by_commit
      rw [hps]
      simp [hps]
  · unfold reuse_parent_tree at hr
    rcases hop : c.get_only_parent with _ | par
    · rw [hop] at hr
      simp at hr
    · have hps : c.parents = [par] := (get_only_parent_eq_some_iff c par).mp hop
      simp [hps]

/-- Claim C4: with `reuse_parent_tree_if_possible` set, a one-parent patch
commit whose parent tree equals the target tree is short-circuited and the
patch commit tree is returned, independent of the merge facade. -/
theorem cherry_pick_fast_reuses_parent_tree (merge : Commit → Commit → MergeIndex)
    (c t : Commit) (options : CherryPickFastOptions) (par : Commit)
    (hpar : c.parents = [par])
    (hreuse : options.reuse_parent_tree_if_possible = true)
    (htree : par.tree = t.tree) :
    cherry_pick_fast merge c t options = .ok c.tree := by
  have honly : c.get_only_parent = some par := (get_only_parent_eq_some_iff c par).mpr hpar
  have hrpt : reuse_parent_tree c t options = true := by
    unfold reuse_parent_tree
    rw [hreuse, honly]
    simp [htree]
  unfold cherry_pick_fast
  rw [hrpt]
  simp

/-- A one-file parent commit used by the reuse-parent-tree witness. -/
def wC4Par : Commit := Commit.mk [("x".data, (1, FileMode.blob))] []

/-- A patch commit on top of `wC4Par` adding a second file. -/
def wC4Patch : Commit :=
  Commit.mk [("x".data, (1, FileMode.blob)), ("y".data, (2, FileMode.blob))] [wC4Par]

/-- A target commit with the same tree as `wC4Par`. -/
def wC4Target : Commit := Commit.mk [("x".data, (1, FileMode.blob))] []

/-- Claim C4, witness: the short-circuit on a concrete reword-style input. -/
theorem cherry_pick_fast_reuses_parent_tree_witness :
    cherry_pick_fast noMerge wC4Patch wC4Target ⟨true⟩ = .ok wC4Patch.tree :=
  cherry_pick_fast_reuses_parent_tree noMerge wC4Patch wC4Target ⟨true⟩ wC4Par rfl rfl rfl

/-- Claim C9, counterexample: none of the three bare version tokens parses
with `GitVersion::from_str`; the parser requires the full `git version x`
output and fails on a lone token with `ParseGitVersionOutput`. -/
theorem git_version_token_parse_cex :
    gitVersionFromStr "2.33.GIT" = .error .ParseGitVersionOutput ∧
    gitVersionFromStr "2.33.0-rc0" = .error .ParseGitVersionOutput ∧
    gitVersionFromStr "12.34.56.78.abcdef" = .error .ParseGitVersionOutput := by
  refine ⟨?_, ?_, ?_⟩ <;> decide

/-- Claim C9, amended: parsing the full version outputs (as in the source
test) yields the claimed versions: `git version 2.33.GIT` gives (2, 33, 0),
`git version 2.33.0-rc0` gives (2, 33, 0), and
`git version 12.34.56.78.abcdef` gives (12, 34, 56). -/
theorem git_version_full_output_parse :
    gitVersionFromStr "git version 2.33.GIT" = .ok ⟨2, 33, 0⟩ ∧
    gitVersionFromStr "git version 2.33.0-rc0" = .ok ⟨2, 33, 0⟩ ∧
    gitVersionFromStr "git version 12.34.56.78.abcdef" = .ok ⟨12, 34, 56⟩ := by
  refine ⟨?_, ?_, ?_⟩ <;> decide

/-- Claim C3: a successful, non-short-circuited `cherry_pick_fast` of a
one-parent commit returns a tree that agrees with the target tree on every
path outside the patch diff. -/
theorem cherry_pick_fast_path_restriction (merge : Commit → Commit → MergeIndex)
    (c t : Commit) (options : CherryPickFastOptions) (par : Commit) (tree : Tree)
    (hpar : c.parents = [par])
    (hnsc : reuse_parent_tree c t options = false)
    (hok : cherry_pick_fast merge c t options = .ok tree)
    (p : Path) (hp : p ∉ get_changed_paths_between_trees (some par.tree) c.tree) :
    treeGet tree p = treeGet t.tree p := by
  unfold cherry_pick_fast at hok
  rw [hnsc] at hok
  simp only [Bool.false_eq_true, if_false] at hok
  have hpaths : get_paths_touched_by_commit c =
      some (get_changed_paths_between_trees (some par.tree) c.tree) := by
    unfold get_paths_touched_by_commit
    rw [hpar]
  rw [hpaths] at hok
  split at hok
  · exact absurd hok (by simp)
  · rename_i cp heq
    have hcp : cp = get_changed_paths_between_trees (some par.tree) c.tree := by
      injection heq with h
      exact h.symm
    subst hcp
    split at hok
    · exact absurd hok (by simp)
    · injection hok with h2
      rw [← h2, hydrate_tree_get, find?_map_keyed, if_neg hp]

/-- A one-file parent commit used by the path-restriction witness. -/
def wC3Par : Commit := Commit.mk [("keep".data, (5, FileMode.blob))] []

/-- A patch commit on `wC3Par` adding one file. -/
def wC3Patch : Commit :=
  Commit.mk [("keep".data, (5, FileMode.blob)), ("new".data, (7, FileMode.blob))] [wC3Par]

/-- A divergent target commit that modified the untouched file. -/
def wC3Target : Commit := Commit.mk [("keep".data, (9, FileMode.blob))] []

/-- A conflict-free merge facade yielding the added file only. -/
def wC3Merge : Commit → Commit → MergeIndex := fun _ _ =>
  { entries := fun p => if p == "new".data then some ⟨7, FileMode.blob⟩ else none
    conflicts := [] }

/-- Claim C3, witness: on a concrete divergent base, the untouched path
keeps exactly the target entry. -/
theorem cherry_pick_fast_path_restriction_witness :
    treeGet [("keep".data, (9, FileMode.blob)), ("new".data, (7, FileMode.blob))] "keep".data =
      treeGet wC3Target.tree "keep".data :=
  cherry_pick_fast_path_restriction wC3Merge wC3Patch wC3Target ⟨false⟩ wC3Par
    [("keep".data, (9, FileMode.blob)), ("new".data, (7, FileMode.blob))]
    rfl (by decide) (by decide) ("keep".data) (by decide)

/-- Claim C5: whenever the facade merge inside a reached `cherry_pick_fast`
reports conflicts, the call fails with `MergeConflict` carrying exactly the
union of the ancestor, our and their paths of the conflict records; the
failure happens even when that union is empty. -/
theorem cherry_pick_fast_merge_conflict (merge : Commit → Commit → MergeIndex)
    (c t : Commit) (options : CherryPickFastOptions) (changed : List Path)
    (hnsc : reuse_parent_tree c t options = false)
    (hpaths : get_paths_touched_by_commit c = some changed)
    (hconf : (merge (dehydrate_commit c changed true)
      (dehydrate_commit t changed false)).conflicts ≠ []) :
    cherry_pick_fast merge c t options =
      .error (.MergeConflict (conflictingPaths
        (merge (dehydrate_commit c changed true)
          (dehydrate_commit t changed false)).conflicts)) ∧
    ∀ p, p ∈ conflictingPaths (merge (dehydrate_commit c changed true)
          (dehydrate_commit t changed false)).conflicts ↔
        ∃ conf ∈ (merge (dehydrate_commit c changed true)
          (dehydrate_commit t changed false)).conflicts,
          conf.ancestor = some p ∨ conf.our = some p ∨ conf.their = some p := by
  constructor
  · have hhc : (merge (dehydrate_commit c changed true)
        (dehydrate_commit t changed false)).has_conflicts = true := by
      unfold MergeIndex.has_conflicts
      rcases hc : (merge (dehydrate_commit c changed true)
          (dehydrate_commit t changed false)).conflicts with _ | ⟨x, xs⟩
      · exact absurd hc hconf
      · rfl
    unfold cherry_pick_fast
    rw [hnsc]
    simp only [Bool.false_eq_true, if_false]
    rw [hpaths]
    simp only [hhc, if_true]
  · intro p
    unfold conflictingPaths
    rw [List.mem_dedup, List.mem_flatMap]
    constructor
    · rintro ⟨conf, hconfmem, hpmem⟩
      refine ⟨conf, hconfmem, ?_⟩
      rcases List.mem_append.mp hpmem with h1 | h2
      · rcases List.mem_append.mp h1 with ha | ho
        · exact Or.inl (Option.mem_def.mp (Option.mem_toList.mp ha))
        · exact Or.inr (Or.inl (Option.mem_def.mp (Option.mem_toList.mp ho)))
      · exact Or.inr (Or.inr (Option.mem_def.mp (Option.mem_toList.mp h2)))
    · rintro ⟨conf, hconfmem, hside⟩
      refine ⟨conf, hconfmem, ?_⟩
      rcases hside with ha | ho | ht
      · exact List.mem_append.mpr (Or.inl (List.mem_append.mpr
          (Or.inl (Option.mem_toList.mpr (Option.mem_def.mpr ha)))))
      · exact List.mem_append.mpr (Or.inl (List.mem_append.mpr
          (Or.inr (Option.mem_toList.mpr (Option.mem_def.mpr ho)))))
      · exact List.mem_append.mpr (Or.inr (Option.mem_toList.mpr (Option.mem_def.mpr ht)))

/-- A one-file parent for the merge-conflict witness. -/
def wC5Par : Commit := Commit.mk [] []

/-- A patch commit on `wC5Par` adding one file. -/
def wC5Patch : Commit := Commit.mk [("f".data, (2, FileMode.blob))] [wC5Par]

/-- The paths touched by `wC5Patch`. -/
def wC5Changed : List Path := ["f".data]

/-- A target commit for the merge-conflict witness. -/
def wC5Target : Commit := Commit.mk [("f".data, (3, FileMode.blob))] []

/-- A merge facade reporting one conflict record whose three sides are all
absent, so the collected conflicting path set is empty. -/
def wC5Merge : Commit → Commit → MergeIndex := fun _ _ =>
  { entries := fun _ => none
    conflicts := [⟨none, none, none⟩] }

/-- Claim C5, witness: a concrete conflicting merge whose collected path
union is empty still fails with `MergeConflict` (with the empty set). -/
theorem cherry_pick_fast_merge_conflict_witness :
    cherry_pick_fast wC5Merge wC5Patch wC5Target ⟨false⟩ =
      .error (.MergeConflict (conflictingPaths
        (wC5Merge (dehydrate_commit wC5Patch wC5Changed true)
          (dehydrate_commit wC5Target wC5Changed false)).conflicts)) :=
  (cherry_pick_fast_merge_conflict wC5Merge wC5Patch wC5Target ⟨false⟩ wC5Changed
    (by decide) (by decide) (by decide)).1

/-- A bare repository (no working copy). -/
def cexBareRepo : Repo :=
  { index := fun _ => none, workdir := none, findCommit := fun _ => none }

/-- A merge commit (two parents). -/
def cexMergeParent : Commit := Commit.mk [] [cexTargetA, cexTargetA]

/-- Claim C10, counterexample: on a bare repository, `amend_fast` of a
merge commit fails with `GetPatch`, not with `NoWorkingCopyPath`. -/
theorem amend_fast_bare_repo_cex :
    amend_fast cexBareRepo cexMergeParent (.FromIndex []) = .error .GetPatch ∧
    amend_fast cexBareRepo cexMergeParent (.FromIndex []) ≠ .error .NoWorkingCopyPath := by
  constructor
  · decide
  · decide

/-- Claim C10, amended: on a bare repository `amend_fast` always fails
before building any tree: with `NoWorkingCopyPath` when the parent commit
has at most one parent, and with `GetPatch` (which fires first) when it
has two or more. -/
theorem amend_fast_bare_repo (repo : Repo) (parent_commit : Commit)
    (opts : AmendFastOptions) (hbare : repo.workdir = none) :
    (parent_commit.parents.length ≤ 1 →
      amend_fast repo parent_commit opts = .error .NoWorkingCopyPath) ∧
    (2 ≤ parent_commit.parents.length →
      amend_fast repo parent_commit opts = .error .GetPatch) := by
  unfold amend_fast
  rcases hps : parent_commit.parents with _ | ⟨a, _ | ⟨b, rest⟩⟩
  · have hgp : get_paths_touched_by_commit parent_commit =
        some (get_changed_paths_between_trees none parent_commit.tree) := by
      unfold get_paths_touched_by_commit
      rw [hps]
    rw [hgp]
    constructor
    · intro _
      rw [hbare]
    · intro h2
      simp at h2
  · have hgp : get_paths_touched_by_commit parent_commit =
        some (get_changed_paths_between_trees (some a.tree) parent_commit.tree) := by
      unfold get_paths_touched_by_commit
      rw [hps]
    rw [hgp]
    constructor
    · intro _
      rw [hbare]
    · intro h2
      simp at h2
  · have hgp : get_paths_touched_by_commit parent_commit = none := by
      unfold get_paths_touched_by_commit
      rw [hps]
    rw [hgp]
    constructor
    · intro h1
      simp only [List.length_cons] at h1
      omega
    · intro _
      rfl

/-- Claim C10, witness: the amended statement on a concrete bare
repository and a one-parent commit. -/
theorem amend_fast_bare_repo_witness :
    amend_fast cexBareRepo (Commit.mk [] []) (.FromIndex []) = .error .NoWorkingCopyPath :=
  (amend_fast_bare_repo cexBareRepo (Commit.mk [] []) (.FromIndex []) rfl).1 (by decide)

/-- A root commit with an empty tree, used as a grandparent fixture. -/
def cexPar0 : Commit := Commit.mk [] []

/-- A one-parent commit holding one file, used by the zero-OID fixtures. -/
def cexZeroParent : Commit := Commit.mk [("a".data, (5, FileMode.blob))] [cexPar0]

/-- A repository whose staging index holds a zero-OID entry at the amended
path. -/
def cexZeroRepo : Repo :=
  { index := fun p => if p == "a".data then some ⟨0, FileMode.blob⟩ else none
    workdir := some (fun _ => none)
    findCommit := fun _ => none }

/-- Claim C2, counterexample: a `FromIndex` amend whose staging-index entry
has the zero OID does not delete the path; the returned tree still has the
parent entry at it. -/
theorem amend_fast_from_index_zero_oid_cex :
    amend_fast cexZeroRepo cexZeroParent (.FromIndex ["a".data]) =
      .ok [("a".data, (5, FileMode.blob))] ∧
    treeGet [("a".data, (5, FileMode.blob))] "a".data = some (5, FileMode.blob) := by
  constructor
  · decide
  · decide

/-- Claim C2, amended: a `FromIndex` path whose staging-index entry has the
zero OID is skipped (with a warning), so the path inherits the parent
commit tree entry: the returned tree agrees with the parent tree at that
path (assuming the parent tree carries no zero OID there). -/
theorem amend_fast_from_index_zero_oid (repo : Repo) (parent_commit : Commit)
    (paths : List Path) (p : Path) (tree : Tree) (e : IndexEntry)
    (hidx : repo.index p = some e) (hz : e.oid = 0) (hp : p ∈ paths)
    (hwf : (treeGet parent_commit.tree p).all (fun em => em.1 != 0) = true)
    (hok : amend_fast repo parent_commit (.FromIndex paths) = .ok tree) :
    treeGet tree p = treeGet parent_commit.tree p := by
  unfold amend_fast at hok
  split at hok
  · exact absurd hok (by simp)
  · rename_i touched htouched
    dsimp only at hok
    split at hok
    · exact absurd hok (by simp)
    · rename_i read hwd
      injection hok with h2
      rw [← h2, hydrate_tree_get, find?_map_keyed]
      have hpch : p ∈ (touched ++ paths).dedup := by
        rw [List.mem_dedup]
        exact List.mem_append_right _ hp
      rw [if_pos hpch]
      have hnone : lookupLast (paths.filterMap (fun path =>
          match repo.index path with
          | some e =>
            if e.oid = 0 then none
            else some (path, some (e.oid, e.file_mode))
          | none => some (path, none))) p = none := by
        apply lookupLast_eq_none
        intro x hx
        rcases List.mem_filterMap.mp hx with ⟨q, hq, hfq⟩
        by_cases hqp : q = p
        · subst hqp
          simp only [hidx] at hfq
          rw [if_pos hz] at hfq
          cases hfq
        · have hx1 : x.1 = q := by
            rcases hiq : repo.index q with _ | e2 <;> simp only [hiq] at hfq
            · cases hfq
              rfl
            · by_cases hz2 : e2.oid = 0
              · rw [if_pos hz2] at hfq
                cases hfq
              · rw [if_neg hz2] at hfq
                cases hfq
                rfl
          rw [hx1]
          exact hqp
      simp only [hnone]
      rw [show (dehydrate_commit parent_commit ((touched ++ paths).dedup) true).tree =
        dehydrate_tree parent_commit.tree ((touched ++ paths).dedup) from rfl]
      rw [dehydrate_tree_get, if_pos hpch]
      rcases hv : treeGet parent_commit.tree p with _ | em
      · rfl
      · rw [hv] at hwf
        have hz2 : ¬em.1 = 0 := by simpa using hwf
        show (if em.1 = 0 then none else some em : Option TreeEntryData) = some em
        rw [if_neg hz2]

/-- Claim C2, witness: the amended statement at the concrete zero-OID
fixture. -/
theorem amend_fast_from_index_zero_oid_witness :
    treeGet [("a".data, (5, FileMode.blob))] "a".data = treeGet cexZeroParent.tree "a".data :=
  amend_fast_from_index_zero_oid cexZeroRepo cexZeroParent ["a".data] ("a".data)
    [("a".data, (5, FileMode.blob))] ⟨0, FileMode.blob⟩
    (by decide) (by decide) (by decide) (by decide) (by decide)

/-- Claim C7: for `amend_fast FromWorkingCopy`, a status-entry path whose
file is absent from the working copy is deleted from the returned tree,
and a path whose file exists gets the blob created from the on-disk
contents with the working-copy file mode of its (unique) status entry. -/
theorem amend_fast_from_working_copy (repo : Repo) (parent_commit : Commit)
    (status_entries : List StatusEntry) (read : Path → Option Oid)
    (p : Path) (entry : StatusEntry) (tree : Tree)
    (hwd : repo.workdir = some read)
    (hentry : entry ∈ status_entries) (hpe : p ∈ entry.paths)
    (hok : amend_fast repo parent_commit (.FromWorkingCopy status_entries) = .ok tree) :
    (read p = none → treeGet tree p = none) ∧
    (∀ oid, read p = some oid → oid ≠ 0 →
      (∀ e2 ∈ status_entries, p ∈ e2.paths → e2 = entry) →
      treeGet tree p = some (oid, entry.working_copy_file_mode)) := by
  unfold amend_fast at hok
  split at hok
  · exact absurd hok (by simp)
  · rename_i touched htouched
    dsimp only at hok
    split at hok
    · exact absurd hok (by simp)
    · rename_i read2 hwd2
      rw [hwd] at hwd2
      injection hwd2 with h3
      subst h3
      injection hok with h2
      rw [← h2, hydrate_tree_get, find?_map_keyed]
      have hpch : p ∈ (touched ++ status_entries.flatMap (fun entry => entry.paths)).dedup := by
        rw [List.mem_dedup]
        exact List.mem_append_right _ (List.mem_flatMap.mpr ⟨entry, hentry, hpe⟩)
      rw [if_pos hpch]
      constructor
      · intro hnone2
        have hlk : lookupLast (status_entries.flatMap (fun entry =>
            entry.paths.map (fun path =>
              (path, Option.map (fun oid => (oid, entry.working_copy_file_mode))
                (read path))))) p = some none := by
          apply lookupLast_eq_const
          · intro x hx hx1
            rcases List.mem_flatMap.mp hx with ⟨e2, he2, hxin⟩
            rcases List.mem_map.mp hxin with ⟨q, hq, hqeq⟩
            cases hqeq
            dsimp only at hx1
            subst hx1
            dsimp only
            rw [hnone2]
            rfl
          · refine ⟨(p, Option.map (fun oid => (oid, entry.working_copy_file_mode)) (read p)),
              ?_, rfl⟩
            exact List.mem_flatMap.mpr ⟨entry, hentry, List.mem_map.mpr ⟨p, hpe, rfl⟩⟩
        simp only [hlk]
      · intro oid hsome hnz huniq
        have hlk : lookupLast (status_entries.flatMap (fun entry =>
            entry.paths.map (fun path =>
              (path, Option.map (fun oid => (oid, entry.working_copy_file_mode))
                (read path))))) p = some (some (oid, entry.working_copy_file_mode)) := by
          apply lookupLast_eq_const
          · intro x hx hx1
            rcases List.mem_flatMap.mp hx with ⟨e2, he2, hxin⟩
            rcases List.mem_map.mp hxin with ⟨q, hq, hqeq⟩
            cases hqeq
            dsimp only at hx1
            subst hx1
            have he2e : e2 = entry := huniq e2 he2 hq
            subst he2e
            dsimp only
            rw [hsome]
            rfl
          · refine ⟨(p, Option.map (fun oid => (oid, entry.working_copy_file_mode)) (read p)),
              ?_, rfl⟩
            exact List.mem_flatMap.mpr ⟨entry, hentry, List.mem_map.mpr ⟨p, hpe, rfl⟩⟩
        simp only [hlk]
        show (if oid = 0 then none
          else some (oid, entry.working_copy_file_mode) : Option TreeEntryData) =
          some (oid, entry.working_copy_file_mode)
        rw [if_neg hnz]

/-- The working-copy read function of the working-copy amend fixture: one
file exists on disk, the other does not. -/
def wC7Read : Path → Option Oid := fun p => if p == "mod".data then some 7 else none

/-- The repository of the working-copy amend fixture. -/
def wC7Repo : Repo :=
  { index := fun _ => none, workdir := some wC7Read, findCommit := fun _ => none }

/-- The amended parent commit of the working-copy fixture: both files were
introduced by it. -/
def wC7Parent : Commit :=
  Commit.mk [("gone".data, (3, FileMode.blob)), ("mod".data, (4, FileMode.blob))] [cexPar0]

/-- The status entry naming the deleted file. -/
def wC7GoneEntry : StatusEntry := ⟨["gone".data], FileMode.blob⟩

/-- The status entry naming the modified file. -/
def wC7ModEntry : StatusEntry := ⟨["mod".data], FileMode.blobExecutable⟩

/-- The status entries of the working-copy amend fixture. -/
def wC7Entries : List StatusEntry := [wC7GoneEntry, wC7ModEntry]

/-- Claim C7, witness: on the concrete fixture the missing file is dropped
from the amended tree. -/
theorem amend_fast_from_working_copy_witness :
    treeGet [("mod".data, (7, FileMode.blobExecutable))] "gone".data = none :=
  (amend_fast_from_working_copy wC7Repo wC7Parent wC7Entries wC7Read ("gone".data) wC7GoneEntry
    [("mod".data, (7, FileMode.blobExecutable))]
    rfl (by decide) (by decide) (by decide)).1 (by decide)

/-- Claim C8: the root comparator decides every pair: it never reports two
distinct roots equal, and it follows exactly the specified precedence
(load fallback to OID, then merge base, then time with OID tie break). -/
theorem compareRoots_total (repo : Repo) (dag : Dag) (lhs_oid rhs_oid : Oid) :
    (lhs_oid ≠ rhs_oid → compareRoots repo dag lhs_oid rhs_oid ≠ .eq) ∧
    compareRoots repo dag lhs_oid rhs_oid = specCompareRoots repo dag lhs_oid rhs_oid := by
  constructor
  · intro hne
    have hcmp : compare lhs_oid rhs_oid ≠ Ordering.eq := fun h =>
      hne (Nat.compare_eq_eq.mp h)
    unfold compareRoots
    rcases hl : repo.findCommit lhs_oid with _ | lc <;>
      rcases hr : repo.findCommit rhs_oid with _ | rc <;> simp only [hl, hr]
    · exact hcmp
    · exact hcmp
    · exact hcmp
    · rcases hm : dag.getOneMergeBaseOid lhs_oid rhs_oid with _ | m <;> simp only [hm]
      · rcases ht : compare lc.time rc.time with _ | _ | _ <;> simp only [ht]
        · simp
        · exact hcmp
        · simp
      · by_cases hml : m = lhs_oid
        · simp [hml]
        · rw [if_neg hml]
          by_cases hmr : m = rhs_oid
          · simp [hmr]
          · rw [if_neg hmr]
            rcases ht : compare lc.time rc.time with _ | _ | _ <;> simp only [ht]
            · simp
            · exact hcmp
            · simp
  · unfold compareRoots specCompareRoots
    rcases hl : repo.findCommit lhs_oid with _ | lc <;>
      rcases hr : repo.findCommit rhs_oid with _ | rc <;> simp only [hl, hr]
    rcases hm : dag.getOneMergeBaseOid lhs_oid rhs_oid with _ | m <;> simp only [hm]
    · simp
    · by_cases hml : m = lhs_oid
      · simp [hml]
      · by_cases hmr : m = rhs_oid <;> simp [hml, hmr]

/-- A DAG facade with no relations at all. -/
def wC8Dag : Dag :=
  { parentsOf := fun _ => []
    findPathToMainBranch := fun _ => none
    obsoleteCommits := []
    publicCommits := []
    activeHeads := fun _ _ => []
    getOneMergeBaseOid := fun _ _ => none }

/-- A repository whose commits all load, with the OID as committer time. -/
def wC8Repo : Repo :=
  { index := fun _ => none, workdir := none, findCommit := fun o => some ⟨o⟩ }

/-- Claim C8, witness: the comparator on a concrete distinct pair. -/
theorem compareRoots_total_witness :
    compareRoots wC8Repo wC8Dag 1 2 ≠ .eq ∧
    compareRoots wC8Repo wC8Dag 1 2 = specCompareRoots wC8Repo wC8Dag 1 2 :=
  ⟨(compareRoots_total wC8Repo wC8Dag 1 2).1 (by decide),
    (compareRoots_total wC8Repo wC8Dag 1 2).2⟩

/-! Smartlog graph lemmas. -/

theorem walk_parent_some_mem_links (repo : Repo) (dag : Dag) (public_commits : List Oid)
    (active_heads : List Oid) (a b : Oid)
    (h : ((walk_from_active_heads repo dag public_commits active_heads).node a).parent = some b) :
    (a, b) ∈ graphLinks repo dag public_commits (graphOids dag active_heads) := by
  unfold walk_from_active_heads at h
  dsimp only at h
  rcases Option.map_eq_some'.mp h with ⟨x, hx, hxb⟩
  have hxmem : x ∈ (graphLinks repo dag public_commits (graphOids dag active_heads)).filter
      (fun l => l.1 == a) := by
    rcases List.getLast?_eq_some_iff.mp hx with ⟨ys, hys⟩
    rw [hys]
    exact List.mem_append_right _ (List.mem_singleton.mpr rfl)
  have hxlinks := (List.mem_filter.mp hxmem).1
  have hx1 : x.1 = a := by simpa using (List.mem_filter.mp hxmem).2
  obtain ⟨x1, x2⟩ := x
  cases hx1
  cases hxb
  exact hxlinks

theorem mem_links_spec (repo : Repo) (dag : Dag) (public_commits : List Oid)
    (oids : List Oid) (a b : Oid)
    (h : (a, b) ∈ graphLinks repo dag public_commits oids) :
    a ∈ oids ∧ b ∈ oids ∧ b ∈ dag.parentsOf a := by
  unfold graphLinks at h
  rcases List.mem_flatMap.mp h with ⟨child, hchild, hmem⟩
  rcases List.mem_map.mp hmem with ⟨par, hpar, heq⟩
  cases heq
  have hchild2 : a ∈ oids := (List.mem_filter.mp hchild).1
  have hpar2 := List.mem_filter.mp hpar
  refine ⟨hchild2, ?_, hpar2.1⟩
  exact (contains_iff _ _).mp (by simpa using hpar2.2)

theorem mem_links_children (repo : Repo) (dag : Dag) (public_commits : List Oid)
    (active_heads : List Oid) (a b : Oid)
    (h : (a, b) ∈ graphLinks repo dag public_commits (graphOids dag active_heads)) :
    a ∈ ((walk_from_active_heads repo dag public_commits active_heads).node b).children := by
  unfold walk_from_active_heads
  dsimp only
  exact List.mem_map.mpr ⟨(a, b), List.mem_filter.mpr ⟨h, by simp⟩, rfl⟩

theorem walk_children_mem_links (repo : Repo) (dag : Dag) (public_commits : List Oid)
    (active_heads : List Oid) (a b : Oid)
    (h : a ∈ ((walk_from_active_heads repo dag public_commits active_heads).node b).children) :
    (a, b) ∈ graphLinks repo dag public_commits (graphOids dag active_heads) := by
  unfold walk_from_active_heads at h
  dsimp only at h
  rcases List.mem_map.mp h with ⟨x, hx, hx1⟩
  have hxlinks := (List.mem_filter.mp hx).1
  have hx2 : x.2 = b := by simpa using (List.mem_filter.mp hx).2
  obtain ⟨x1, x2⟩ := x
  cases hx1
  cases hx2
  exact hxlinks

theorem mem_links_parent_ne_none (repo : Repo) (dag : Dag) (public_commits : List Oid)
    (active_heads : List Oid) (a b : Oid)
    (h : (a, b) ∈ graphLinks repo dag public_commits (graphOids dag active_heads)) :
    ((walk_from_active_heads repo dag public_commits active_heads).node a).parent ≠ none := by
  unfold walk_from_active_heads
  dsimp only
  have hmem : (a, b) ∈ (graphLinks repo dag public_commits (graphOids dag active_heads)).filter
      (fun l => l.1 == a) :=
    List.mem_filter.mpr ⟨h, by simp⟩
  have hne : (graphLinks repo dag public_commits (graphOids dag active_heads)).filter
      (fun l => l.1 == a) ≠ [] :=
    List.ne_nil_of_mem hmem
  rcases Option.isSome_iff_exists.mp (List.getLast?_isSome.mpr hne) with ⟨x, hx⟩
  rw [hx]
  simp

theorem sort_children_mem (repo : Repo) (graph : SmartlogGraph) (a b : Oid) :
    a ∈ ((sort_children repo graph).node b).children ↔ a ∈ (graph.node b).children := by
  unfold sort_children
  dsimp only
  exact (List.perm_insertionSort _ _).mem_iff

/-- Claim C6 (amended): in every graph built by `make_smartlog_graph`,
parent links are mutual (a parent pointer implies membership of both nodes
and a matching children entry), every listed child is a graph node with a
populated parent pointer to one of its graph parents (though not
necessarily to this parent), and `is_main` holds exactly on the
public-commit set. -/
theorem make_smartlog_graph_invariants (repo : Repo) (dag : Dag)
    (observed_commits : List Oid) (remove_commits : Bool) :
    (∀ a b,
      ((make_smartlog_graph repo dag observed_commits remove_commits).node a).parent = some b →
      a ∈ (make_smartlog_graph repo dag observed_commits remove_commits).oids ∧
      b ∈ (make_smartlog_graph repo dag observed_commits remove_commits).oids ∧
      a ∈ ((make_smartlog_graph repo dag observed_commits remove_commits).node b).children) ∧
    (∀ a b,
      a ∈ ((make_smartlog_graph repo dag observed_commits remove_commits).node b).children →
      a ∈ (make_smartlog_graph repo dag observed_commits remove_commits).oids ∧
      b ∈ (make_smartlog_graph repo dag observed_commits remove_commits).oids ∧
      ((make_smartlog_graph repo dag observed_commits remove_commits).node a).parent ≠ none ∧
      b ∈ dag.parentsOf a) ∧
    (∀ a,
      ((make_smartlog_graph repo dag observed_commits remove_commits).node a).is_main = true ↔
      a ∈ dag.publicCommits) := by
  unfold make_smartlog_graph
  refine ⟨?_, ?_, ?_⟩
  · intro a b hpar
    have hlink := walk_parent_some_mem_links repo dag dag.publicCommits _ a b hpar
    have hspec := mem_links_spec repo dag dag.publicCommits _ a b hlink
    exact ⟨hspec.1, hspec.2.1,
      (sort_children_mem repo _ a b).mpr (mem_links_children repo dag dag.publicCommits _ a b hlink)⟩
  · intro a b hchild
    have hlink := walk_children_mem_links repo dag dag.publicCommits _ a b
      ((sort_children_mem repo _ a b).mp hchild)
    have hspec := mem_links_spec repo dag dag.publicCommits _ a b hlink
    exact ⟨hspec.1, hspec.2.1,
      mem_links_parent_ne_none repo dag dag.publicCommits _ a b hlink, hspec.2.2⟩
  · intro a
    show (initialNode repo dag dag.publicCommits a).is_main = true ↔ a ∈ dag.publicCommits
    unfold initialNode
    exact contains_iff _ _

/-- The DAG of the mutual-links counterexample: commit 1 is a merge of
commits 2 and 3, and all three are in the projected graph. -/
def cexC6Dag : Dag :=
  { parentsOf := fun o => if o = 1 then [2, 3] else []
    findPathToMainBranch := fun o =>
      if o = 1 then some [1, 2] else if o = 3 then some [3] else none
    obsoleteCommits := []
    publicCommits := []
    activeHeads := fun _ _ => [1, 3]
    getOneMergeBaseOid := fun _ _ => none }

/-- A repository whose commits all load with a fixed time. -/
def cexC6Repo : Repo :=
  { index := fun _ => none, workdir := none, findCommit := fun _ => some ⟨0⟩ }

/-- Claim C6, counterexample: node 1 is listed among the children of node
2, but its parent field points at node 3 (the last of its graph parents),
so the converse half of the mutuality claim fails. -/
theorem make_smartlog_graph_children_parent_cex :
    1 ∈ ((make_smartlog_graph cexC6Repo cexC6Dag [1, 3] false).node 2).children ∧
    ((make_smartlog_graph cexC6Repo cexC6Dag [1, 3] false).node 1).parent ≠ some 2 := by
  constructor
  · decide
  · decide

/-- Claim C6, witness: the amended invariants applied at the concrete
fixture, where the parent pointer of node 1 is node 3. -/
theorem make_smartlog_graph_invariants_witness :
    1 ∈ (make_smartlog_graph cexC6Repo cexC6Dag [1, 3] false).oids ∧
    3 ∈ (make_smartlog_graph cexC6Repo cexC6Dag [1, 3] false).oids ∧
    1 ∈ ((make_smartlog_graph cexC6Repo cexC6Dag [1, 3] false).node 3).children :=
  (make_smartlog_graph_invariants cexC6Repo cexC6Dag [1, 3] false).1 1 3 (by decide)

end Branchless
